import Mathlib

/-!
# Verification of the s5cmd sync planning engine

A shallow embedding of `command/sync.go` (the sync planning engine):
the merge-diff over source/destination listings (`compareObjects`), the
destination resolver (`generateDestinationURL`), the skip filter
(`shouldSkipObject`), the listing driver (`getSourceAndDestinationObjects`),
the plan emitter (`planRun`) and the error aggregation loop of `Sync.Run`.

Go strings are compared byte-lexicographically; UTF-8 byte order coincides
with code-point order, so Go's `<` on strings is embedded as a
code-point-lexicographic comparison on `String.data`.  The host path
separator consumed by `filepath.ToSlash` is kept as an explicit parameter
`sep : Char`, so that platform dependence is visible in the statements.

Collaborators that live outside `command/sync.go` (the `url` package, the
storage client, `generateCommand`) are modelled from the spec; each such
definition carries a doc comment saying so.
-/

namespace SyncSpec

/-- Go's `<` on strings, embedded as code-point-lexicographic comparison of
the character lists (UTF-8 byte order equals code-point order). -/
def lexLtB : List Char → List Char → Bool
  | [], [] => false
  | [], _ :: _ => true
  | _ :: _, [] => false
  | a :: as, b :: bs =>
    if a.toNat < b.toNat then true
    else if b.toNat < a.toNat then false
    else lexLtB as bs

/-- `strLtB a b` embeds the Go expression `a < b` on strings. -/
def strLtB (a b : String) : Bool := lexLtB a.data b.data

/-- `leadMatch pat l` embeds "l starts with pat" on character lists. -/
def leadMatch : List Char → List Char → Bool
  | [], _ => true
  | _ :: _, [] => false
  | a :: as, b :: bs => a = b && leadMatch as bs

/-- `subMatch pat l`: some tail of `l` starts with `pat`. -/
def subMatch (pat : List Char) : List Char → Bool
  | [] => leadMatch pat []
  | c :: rest => leadMatch pat (c :: rest) || subMatch pat rest

/-- Embeds Go `strings.Contains(s, pat)`. -/
def strContains (s pat : String) : Bool := subMatch pat.data s.data

/-- `strSuffix post s` embeds Go `strings.HasSuffix(s, post)`. -/
def strSuffix (post s : String) : Bool := subMatchEnd post.data s.data
where
  /-- the suffix test: `l` ends with `pat`. -/
  subMatchEnd (pat l : List Char) : Bool := leadMatch pat.reverse l.reverse

/-- Modelled from the spec: the Location Reference (URL) of the missing
`storage/url` package — an addressable path tagged remote or local, with a
path, and the relative path computed against the base prefix under which the
object was listed (spec section 3). -/
structure URL where
  /-- tagged remote (object storage) or local (filesystem). -/
  remote : Bool
  /-- the object key or local path. -/
  path : String
  /-- `Relative()`: the path relative to the listing base prefix. -/
  rel : String
  deriving DecidableEq

/-- Modelled from the spec: `IsRemote` predicate of the missing url package. -/
def URL.IsRemote (u : URL) : Bool := u.remote

/-- Modelled from the spec: bucket-root destination — a remote location with
no object key (spec glossary "prefix / bucket-root destination"). -/
def URL.IsBucket (u : URL) : Bool := u.remote && u.path = ""

/-- Modelled from the spec: prefix destination — trailing separator, no
object key (spec section 3 "isPrefix"). -/
def URL.IsPrefix (u : URL) : Bool := strSuffix "/" u.path

/-- Modelled from the spec: `Relative()` of the missing url package; the
relative path is held as data, computed by the external listing. -/
def URL.Relative (u : URL) : String := u.rel

/-- Modelled from the spec: base-name extraction of the missing url
package — the last path segment. -/
def URL.Base (u : URL) : String := ((u.path.splitOn "/").getLast? ).getD u.path

/-- Modelled from the spec: `Join` of the missing url package appends a
relative segment to the location's path. -/
def URL.Join (u : URL) (s : String) : URL :=
  { u with path := if u.path = "" || strSuffix "/" u.path then u.path ++ s else u.path ++ "/" ++ s }

/-- Modelled from the spec: `Clone` returns a copy of the location; values
are immutable here, so the clone is the value itself. -/
def URL.Clone (u : URL) : URL := u

/-- object kind: file or directory (spec section 3). -/
inductive ObjKind where
  | file
  | dir
  deriving DecidableEq

/-- `IsDir` on the object kind. -/
def ObjKind.isDir : ObjKind → Bool
  | .file => false
  | .dir => true

/-- Modelled from the spec: an object-level listing error, with its message
and whether it is a cancellation-class error (`errorpkg.IsCancelation`). -/
structure ObjErr where
  msg : String
  cancel : Bool
  deriving DecidableEq

/-- Modelled from the spec: `errorpkg.IsCancelation` on an optional error;
a nil error is not a cancellation. -/
def isCancelation : Option ObjErr → Bool
  | none => false
  | some e => e.cancel

/-- Modelled from the spec: `storage.StorageClass.IsGlacier` — whether the
storage class is the archival (Glacier) tier. -/
def isGlacier (sc : String) : Bool := sc = "GLACIER"

/-- The Object Descriptor of `storage.Object` as used by `sync.go`:
location, kind, size, modification time, storage class, optional error. -/
structure Object where
  url : URL
  kind : ObjKind
  size : Nat
  modTime : Int
  storageClass : String
  err : Option ObjErr
  deriving DecidableEq

/-- `ObjectPair` from `sync.go`: a source object and a destination object at
the same relative path. -/
structure ObjectPair where
  src : Object
  dst : Object
  deriving DecidableEq

/-- The `Sync` struct of `sync.go` (operation flags and states); the opaque
`storageOpts` client options are omitted. -/
structure Sync where
  src : String
  dst : String
  op : String
  fullCommand : String
  delete : Bool
  sizeOnly : Bool
  followSymlinks : Bool
  storageClass : String
  raw : Bool
  srcRegion : String
  dstRegion : String
  deriving DecidableEq

/-- The command-line flags read by `NewSync` from the cli context. -/
structure SyncFlags where
  src : String
  dst : String
  op : String
  fullCommand : String
  delete : Bool
  sizeOnly : Bool
  noFollowSymlinks : Bool
  raw : Bool
  storageClass : String
  srcRegion : String
  dstRegion : String
  deriving DecidableEq

/-- `NewSync` from `sync.go`: builds `Sync` from the cli flags; note
`followSymlinks := !c.Bool("no-follow-symlinks")`. -/
def NewSync (c : SyncFlags) : Sync :=
  { src := c.src
    dst := c.dst
    op := c.op
    fullCommand := c.fullCommand
    delete := c.delete
    sizeOnly := c.sizeOnly
    followSymlinks := !c.noFollowSymlinks
    storageClass := c.storageClass
    raw := c.raw
    srcRegion := c.srcRegion
    dstRegion := c.dstRegion }

/-- `generateDestinationURL` from `sync.go`: destination url for a given
source url — base name (or relative path in batch mode) joined onto the
destination, except that a remote destination that is neither a prefix nor
a bucket root is cloned unchanged. -/
def generateDestinationURL (srcurl dsturl : URL) (isBatch : Bool) : URL :=
  let objname := if isBatch then srcurl.Relative else srcurl.Base
  if dsturl.IsRemote then
    if dsturl.IsPrefix || dsturl.IsBucket then dsturl.Join objname
    else dsturl.Clone
  else dsturl.Join objname

/-- `shouldSkipObject` from `sync.go`.  Returns the skip decision together
with the list of messages printed through `printError` (the reporting
side-channel): directories and cancellation-class errors are skipped
silently; other object errors and Glacier objects are skipped and reported
only when `verbose` is true. -/
def Sync.shouldSkipObject (s : Sync) (o : Object) (verbose : Bool) : Bool × List String :=
  if o.kind.isDir || isCancelation o.err then (true, [])
  else
    match o.err with
    | some e => (true, if verbose then [e.msg] else [])
    | none =>
      if isGlacier o.storageClass then
        (true, if verbose then ["object " ++ o.url.path ++ " is on Glacier storage"] else [])
      else (false, [])

/-- `filepath.ToSlash` for host path separator `sep`: every occurrence of
the separator is replaced by a forward slash (replacing a single character
is a character map). -/
def toSlash (sep : Char) (s : String) : String :=
  String.mk (s.data.map fun c => if c = sep then '/' else c)

/-- The key the merge-join of `compareObjects` compares at each step:
`filepath.ToSlash(object.URL.Relative())`. -/
def okey (sep : Char) (o : Object) : String := toSlash sep o.url.rel

/-- The merge-join key of a recorded URL, `filepath.ToSlash(url.Relative())`. -/
def ukey (sep : Char) (u : URL) : String := toSlash sep u.rel

/-- Strict order on the merge-join keys of two objects. -/
def okeyLt (sep : Char) (a b : Object) : Prop :=
  strLtB (okey sep a) (okey sep b) = true

/-- The comparator passed to `sort.SliceStable` in `compareObjects`
(line 222): the raw relative paths compared with Go string `<` — without
`filepath.ToSlash`. -/
def goLess (a b : Object) : Prop := strLtB a.url.rel b.url.rel = true

instance : DecidableRel goLess := fun a b => inferInstanceAs (Decidable (_ = _))

/-- The order established by `sort.SliceStable(less)`: `a` may precede `b`
iff `!less(b, a)`. -/
def relLe (a b : Object) : Prop := strLtB b.url.rel a.url.rel = false

instance : DecidableRel relLe := fun a b => inferInstanceAs (Decidable (_ = _))

/-- The triple returned by `compareObjects`: urls only in source, urls only
in destination, and common pairs. -/
structure DiffResult where
  srcOnly : List URL
  dstOnly : List URL
  common : List ObjectPair
  deriving DecidableEq

/-- The merge-join loop of `compareObjects` (lines 229-267), on the two
sorted object lists.  At each step the slash-normalized relative paths of
the two cursors are compared: `srcName > dstName` records the destination
head as destination-only and advances the destination cursor;
`srcName == dstName` records an `ObjectPair` and advances both; otherwise
the source head is recorded as source-only and the source cursor advances.
A side with no remaining element is drained into its "only" partition.
The `fuel` argument is a structural bound on the number of iterations; the
loop advances at least one cursor per step, so `|src| + |dst|` iterations
always suffice (see `mergeLoop`). -/
def mergeAux (sep : Char) : Nat → List Object → List Object → DiffResult
  | _, [], [] => ⟨[], [], []⟩
  | 0, _, _ => ⟨[], [], []⟩
  | n + 1, s :: ss, [] =>
    let r := mergeAux sep n ss []
    ⟨s.url :: r.srcOnly, r.dstOnly, r.common⟩
  | n + 1, [], d :: ds =>
    let r := mergeAux sep n [] ds
    ⟨r.srcOnly, d.url :: r.dstOnly, r.common⟩
  | n + 1, s :: ss, d :: ds =>
    let srcName := toSlash sep s.url.rel
    let dstName := toSlash sep d.url.rel
    if strLtB dstName srcName then
      let r := mergeAux sep n (s :: ss) ds
      ⟨r.srcOnly, d.url :: r.dstOnly, r.common⟩
    else if srcName = dstName then
      let r := mergeAux sep n ss ds
      ⟨r.srcOnly, r.dstOnly, ⟨s, d⟩ :: r.common⟩
    else
      let r := mergeAux sep n ss (d :: ds)
      ⟨s.url :: r.srcOnly, r.dstOnly, r.common⟩

/-- The merge-join loop with its sufficient iteration budget. -/
def mergeLoop (sep : Char) (ss ds : List Object) : DiffResult :=
  mergeAux sep (ss.length + ds.length) ss ds

/-- `compareObjects` from `sync.go`: stably sort each side by the raw
relative path (`sort.SliceStable` with the comparator of line 222, embedded
as the stable insertion sort over `relLe`), then run the merge-join loop. -/
def compareObjects (sep : Char) (sourceObjects destObjects : List Object) : DiffResult :=
  mergeLoop sep (List.insertionSort relLe sourceObjects) (List.insertionSort relLe destObjects)

/-- A Plan Entry as handed to the executor.  Modelled from the spec:
`generateCommand` (missing from the sources) renders op, flags and argument
urls into one command entry; the only flag `sync.go` passes is `raw`. -/
structure Command where
  op : String
  raw : Bool
  args : List URL
  deriving DecidableEq

/-- Modelled from the spec: `generateCommand` builds one textual/structured
command entry from the operation name, the forced flags and the argument
urls; construction of the structured entry cannot fail in this model. -/
def generateCommand (op : String) (rawFlag : Bool) (args : List URL) : Command :=
  ⟨op, rawFlag, args⟩

/-- The Sync Strategy interface: `ShouldSync(src, dst)` returns an error
(the reason the pair is already in sync) or nil (synchronization
required). -/
def SyncStrategy := Object → Object → Option String

/-- What `planRun` produces: the command entries written to the pipe, in
order, and the debug-level traces (`printDebug`). -/
structure PlanOutput where
  cmds : List Command
  debug : List String
  deriving DecidableEq

/-- `planRun` from `sync.go`: emit a copy for every source-only url (with
the resolved destination), then a copy for every common pair the strategy
does not veto (a non-nil strategy result is only traced at debug level),
then — when the delete flag is set and the destination-only partition is
non-empty — one batched `rm` over all destination-only urls.  Every
`generateCommand` call receives the forced `defaultFlags` with
`raw: true`. -/
def planRun (s : Sync) (onlySource onlyDest : List URL) (common : List ObjectPair)
    (dsturl : URL) (strategy : SyncStrategy) (isBatch : Bool) : PlanOutput :=
  let rawFlag := true
  let srcCmds := onlySource.map fun srcurl =>
    generateCommand "cp" rawFlag [srcurl, generateDestinationURL srcurl dsturl isBatch]
  let commonCmds := common.filterMap fun p =>
    match strategy p.src p.dst with
    | some _ => none
    | none => some (generateCommand "cp" rawFlag [p.src.url, p.dst.url])
  let commonDebug := common.filterMap fun p => strategy p.src p.dst
  let delCmds :=
    if s.delete && decide (0 < onlyDest.length) then [generateCommand "rm" rawFlag onlyDest]
    else []
  ⟨srcCmds ++ commonCmds ++ delCmds, commonDebug⟩

/-- The fd-exhaustion signal matched textually in `Sync.Run` (line 194):
`strings.Contains(err.Error(), "too many open files")`. -/
def tooManyOpenFiles (e : String) : Bool := strContains e "too many open files"

/-- Outcome of the error aggregation goroutine of `Sync.Run`: either the
process terminated (`os.Exit`) on a fatal resource-exhaustion error, with
the given exit code and the errors accumulated before it, or the loop
completed normally with the combined multi-error (each combined error was
also printed individually as it arrived). -/
inductive AggResult where
  | fatal (err : String) (exitCode : Nat) (accumulated : List String)
  | normal (combined : List String)
  deriving DecidableEq

/-- The error aggregation loop body of `Sync.Run` (lines 191-203),
processing the errors in arrival order with the accumulator `acc`: an error
whose text contains "too many open files" terminates the process with exit
code 1 immediately; any other error is reported and appended to the
combined multi-error. -/
def aggLoop (acc : List String) : List String → AggResult
  | [] => .normal acc
  | e :: rest => if tooManyOpenFiles e then .fatal e 1 acc else aggLoop (acc ++ [e]) rest

/-- The whole aggregation run over the errors arriving on the waiter
channel, starting from the empty multi-error. -/
def aggregateErrors (errs : List String) : AggResult := aggLoop [] errs

/-- The destination listing pattern built in `getSourceAndDestinationObjects`
(lines 302-307): `dst + "*"` when `dst` ends in a slash, else `dst + "/*"`. -/
def destinationListPath (dst : String) : String :=
  if strSuffix "/" dst then dst ++ "*" else dst ++ "/*"

/-- Modelled from the spec: `url.New` of the missing url package parses a
string into a Location Reference (remote iff it carries the s3 scheme);
no relative path is attached at construction. -/
def urlNew (s : String) : URL :=
  { remote := leadMatch "s3://".data s.data, path := s, rel := "" }

/-- `getSourceAndDestinationObjects` from `sync.go`, with the external
Listing Adapter as the parameter `lister : URL → Bool → List Object`
(a location and a follow-symlinks flag yield the listed objects).  The
source side is listed at `srcurl` with `s.followSymlinks`; the destination
side is listed at the wildcard-suffixed destination with the follow-symlinks
argument fixed to `false` (line 318).  Each side keeps exactly the objects
its skip filter does not reject (`verbose` is true on the source side,
false on the destination side). -/
def getSourceAndDestinationObjects (s : Sync) (lister : URL → Bool → List Object)
    (srcurl dsturl : URL) : List Object × List Object :=
  let _ := dsturl
  let sourceObjects := (lister srcurl s.followSymlinks).filter
    fun o => !(s.shouldSkipObject o true).1
  let destObjectsURL := urlNew (destinationListPath s.dst)
  let destObjects := (lister destObjectsURL false).filter
    fun o => !(s.shouldSkipObject o false).1
  (sourceObjects, destObjects)

/-- The destination-resolution table of spec section 4.4 with its first row
amended: in batch mode a remote exact-key destination is still cloned
unchanged (the batch flag only switches the joined segment from base name
to relative path); every other row is as documented. -/
def resolveDestinationSpec (src dst : URL) (isBatch : Bool) : URL :=
  if isBatch then
    if dst.IsRemote && !(dst.IsPrefix || dst.IsBucket) then dst.Clone
    else dst.Join src.Relative
  else
    if dst.IsRemote then
      if dst.IsPrefix || dst.IsBucket then dst.Join src.Base
      else dst.Clone
    else dst.Join src.Base

/-- Fixture: a plain eligible file object at a relative path. -/
def fileObj (rel : String) (size : Nat) : Object :=
  { url := { remote := false, path := rel, rel := rel }, kind := .file, size := size,
    modTime := 0, storageClass := "STANDARD", err := none }

/-- Fixture: a remote source url listed under a prefix. -/
def batchSrcURL : URL :=
  { remote := true, path := "pre/a/b", rel := "a/b" }

/-- Fixture: a remote destination addressing an exact object key (neither a
prefix nor a bucket root). -/
def remoteKeyURL : URL :=
  { remote := true, path := "key", rel := "" }

/-- Fixture: a sync configuration with every flag off. -/
def sampleSync : Sync :=
  { src := "s3://b/p", dst := "dir", op := "sync", fullCommand := "sync s3://b/p dir",
    delete := false, sizeOnly := false, followSymlinks := true, storageClass := "",
    raw := false, srcRegion := "", dstRegion := "" }

/-- Fixture: the same configuration with the delete flag enabled. -/
def sampleSyncDelete : Sync :=
  { sampleSync with delete := true }

/-- Fixture: a destination-side object on the Glacier storage class. -/
def glacierObject : Object :=
  { url := { remote := true, path := "p/g.txt", rel := "g.txt" }, kind := .file,
    size := 1, modTime := 0, storageClass := "GLACIER", err := none }

/-- Fixture: a common pair at the same relative path with differing sizes. -/
def syncPair : ObjectPair :=
  { src := fileObj "a.txt" 10, dst := fileObj "a.txt" 12 }

/-! ## Order facts for the embedded Go string comparison -/

theorem charEq_of_toNat_eq {a b : Char} (h : a.toNat = b.toNat) : a = b := by
  rw [← Char.ofNat_toNat a, h, Char.ofNat_toNat]

theorem lexLtB_irrefl : ∀ l, lexLtB l l = false
  | [] => rfl
  | a :: as => by simp [lexLtB, lexLtB_irrefl as]

theorem lexLtB_trans : ∀ a b c, lexLtB a b = true → lexLtB b c = true → lexLtB a c = true
  | [], [], _, hab, _ => by simp [lexLtB] at hab
  | [], _ :: _, [], _, hbc => by simp [lexLtB] at hbc
  | [], _ :: _, _ :: _, _, _ => rfl
  | _ :: _, [], _, hab, _ => by simp [lexLtB] at hab
  | _ :: _, _ :: _, [], _, hbc => by simp [lexLtB] at hbc
  | a :: as, b :: bs, c :: cs, hab, hbc => by
    simp only [lexLtB] at hab hbc ⊢
    by_cases h1 : a.toNat < b.toNat
    · rw [if_pos h1] at hab
      by_cases h2 : b.toNat < c.toNat
      · rw [if_pos (show a.toNat < c.toNat by omega)]
      · rw [if_neg h2] at hbc
        by_cases h3 : c.toNat < b.toNat
        · rw [if_pos h3] at hbc; exact absurd hbc (by simp)
        · rw [if_pos (show a.toNat < c.toNat by omega)]
    · rw [if_neg h1] at hab
      by_cases h1' : b.toNat < a.toNat
      · rw [if_pos h1'] at hab; exact absurd hab (by simp)
      · rw [if_neg h1'] at hab
        by_cases h2 : b.toNat < c.toNat
        · rw [if_pos (show a.toNat < c.toNat by omega)]
        · rw [if_neg h2] at hbc
          by_cases h3 : c.toNat < b.toNat
          · rw [if_pos h3] at hbc; exact absurd hbc (by simp)
          · rw [if_neg h3] at hbc
            rw [if_neg (show ¬ a.toNat < c.toNat by omega),
              if_neg (show ¬ c.toNat < a.toNat by omega)]
            exact lexLtB_trans as bs cs hab hbc

theorem lexLtB_antisymm : ∀ a b, lexLtB a b = false → lexLtB b a = false → a = b
  | [], [], _, _ => rfl
  | [], _ :: _, hab, _ => by simp [lexLtB] at hab
  | _ :: _, [], _, hba => by simp [lexLtB] at hba
  | a :: as, b :: bs, hab, hba => by
    simp only [lexLtB] at hab hba
    by_cases h1 : a.toNat < b.toNat
    · simp [h1] at hab
    · by_cases h2 : b.toNat < a.toNat
      · simp [h1, h2] at hab hba
      · simp [h1, h2] at hab hba
        have : a = b := charEq_of_toNat_eq (by omega)
        rw [this, lexLtB_antisymm as bs hab hba]

theorem strLtB_irrefl (s : String) : strLtB s s = false := lexLtB_irrefl s.data

theorem strLtB_trans {a b c : String} (hab : strLtB a b = true) (hbc : strLtB b c = true) :
    strLtB a c = true := lexLtB_trans a.data b.data c.data hab hbc

theorem strLtB_eq_of_not_lt {a b : String} (hab : strLtB a b = false)
    (hba : strLtB b a = false) : a = b :=
  String.ext (lexLtB_antisymm a.data b.data hab hba)

theorem strLtB_asymm {a b : String} (h : strLtB a b = true) : strLtB b a = false := by
  by_contra hba
  have hba' : strLtB b a = true := by
    cases hh : strLtB b a with
    | false => exact absurd hh hba
    | true => rfl
  exact absurd (strLtB_trans h hba') (by simp [strLtB_irrefl])

theorem strLtB_ne {a b : String} (h : strLtB a b = true) : a ≠ b := by
  intro he; subst he; exact absurd h (by simp [strLtB_irrefl])

theorem strLtB_total_of_ne {a b : String} (h : a ≠ b) :
    strLtB a b = true ∨ strLtB b a = true := by
  cases hab : strLtB a b with
  | true => exact Or.inl rfl
  | false =>
    cases hba : strLtB b a with
    | true => exact Or.inr rfl
    | false => exact absurd (strLtB_eq_of_not_lt hab hba) h

theorem strLtB_notLt_trans {a b c : String} (hba : strLtB b a = false)
    (hcb : strLtB c b = false) : strLtB c a = false := by
  cases hca : strLtB c a with
  | false => rfl
  | true =>
    cases hbc : strLtB b c with
    | true => exact absurd (strLtB_trans hbc hca) (by simp [hba])
    | false =>
      have : b = c := strLtB_eq_of_not_lt hbc hcb
      subst this
      exact absurd hca (by simp [hba])

instance : IsTotal Object relLe where
  total a b := by
    unfold relLe
    cases h : strLtB b.url.rel a.url.rel with
    | false => exact Or.inl rfl
    | true => exact Or.inr (strLtB_asymm h)

instance : IsTrans Object relLe where
  trans a b c hab hbc := strLtB_notLt_trans hab hbc

/-! ## Structural facts about the merge-join loop -/

theorem mergeAux_nil_right (sep : Char) :
    ∀ (fuel : Nat) (ss : List Object), ss.length ≤ fuel →
      mergeAux sep fuel ss [] = ⟨ss.map fun o => o.url, [], []⟩ := by
  intro fuel
  induction fuel with
  | zero =>
    intro ss h
    have : ss = [] := List.eq_nil_of_length_eq_zero (by omega)
    subst this
    rfl
  | succ n ih =>
    intro ss h
    cases ss with
    | nil => rfl
    | cons s ss =>
      simp only [mergeAux, ih ss (by simp at h; omega)]
      rfl

theorem mergeAux_nil_left (sep : Char) :
    ∀ (fuel : Nat) (ds : List Object), ds.length ≤ fuel →
      mergeAux sep fuel [] ds = ⟨[], ds.map fun o => o.url, []⟩ := by
  intro fuel
  induction fuel with
  | zero =>
    intro ds h
    have : ds = [] := List.eq_nil_of_length_eq_zero (by omega)
    subst this
    rfl
  | succ n ih =>
    intro ds h
    cases ds with
    | nil => rfl
    | cons d ds =>
      simp only [mergeAux, ih ds (by simp at h; omega)]
      rfl

theorem mergeAux_src_perm (sep : Char) :
    ∀ (fuel : Nat) (ss ds : List Object), ss.length + ds.length ≤ fuel →
      ((mergeAux sep fuel ss ds).srcOnly ++
        (mergeAux sep fuel ss ds).common.map fun p => p.src.url).Perm
        (ss.map fun o => o.url) := by
  intro fuel
  induction fuel with
  | zero =>
    intro ss ds h
    have hss : ss = [] := List.eq_nil_of_length_eq_zero (by omega)
    have hds : ds = [] := List.eq_nil_of_length_eq_zero (by omega)
    subst hss; subst hds
    simp [mergeAux]
  | succ n ih =>
    intro ss ds h
    cases ss with
    | nil =>
      rw [mergeAux_nil_left sep (n + 1) ds (by simp at h; omega)]
      simp
    | cons s ss =>
      cases ds with
      | nil =>
        rw [mergeAux_nil_right sep (n + 1) (s :: ss) (by simp at h ⊢; omega)]
        simp
      | cons d ds =>
        simp only [mergeAux]
        split
        · exact ih (s :: ss) ds (by simp at h ⊢; omega)
        · split
          · have hperm := ih ss ds (by simp at h ⊢; omega)
            simp only [List.map_cons]
            exact List.Perm.trans List.perm_middle (hperm.cons s.url)
          · have hperm := ih ss (d :: ds) (by simp at h ⊢; omega)
            simp only [List.cons_append, List.map_cons]
            exact hperm.cons s.url

theorem mergeAux_dst_perm (sep : Char) :
    ∀ (fuel : Nat) (ss ds : List Object), ss.length + ds.length ≤ fuel →
      ((mergeAux sep fuel ss ds).dstOnly ++
        (mergeAux sep fuel ss ds).common.map fun p => p.dst.url).Perm
        (ds.map fun o => o.url) := by
  intro fuel
  induction fuel with
  | zero =>
    intro ss ds h
    have hss : ss = [] := List.eq_nil_of_length_eq_zero (by omega)
    have hds : ds = [] := List.eq_nil_of_length_eq_zero (by omega)
    subst hss; subst hds
    simp [mergeAux]
  | succ n ih =>
    intro ss ds h
    cases ss with
    | nil =>
      rw [mergeAux_nil_left sep (n + 1) ds (by simp at h; omega)]
      simp
    | cons s ss =>
      cases ds with
      | nil =>
        rw [mergeAux_nil_right sep (n + 1) (s :: ss) (by simp at h ⊢; omega)]
        simp
      | cons d ds =>
        simp only [mergeAux]
        split
        · have hperm := ih (s :: ss) ds (by simp at h ⊢; omega)
          simp only [List.cons_append, List.map_cons]
          exact hperm.cons d.url
        · split
          · have hperm := ih ss ds (by simp at h ⊢; omega)
            simp only [List.map_cons]
            exact List.Perm.trans List.perm_middle (hperm.cons d.url)
          · exact ih ss (d :: ds) (by simp at h ⊢; omega)

theorem mergeAux_common_keys (sep : Char) :
    ∀ (fuel : Nat) (ss ds : List Object),
      ∀ p ∈ (mergeAux sep fuel ss ds).common, okey sep p.src = okey sep p.dst := by
  intro fuel
  induction fuel with
  | zero =>
    intro ss ds p hp
    cases ss <;> cases ds <;> simp [mergeAux] at hp
  | succ n ih =>
    intro ss ds p hp
    cases ss with
    | nil =>
      cases ds with
      | nil => simp [mergeAux] at hp
      | cons d ds =>
        simp only [mergeAux] at hp
        exact ih [] ds p hp
    | cons s ss =>
      cases ds with
      | nil =>
        simp only [mergeAux] at hp
        exact ih ss [] p hp
      | cons d ds =>
        simp only [mergeAux] at hp
        split at hp
        · exact ih (s :: ss) ds p hp
        · split at hp
          · rename_i heq2
            simp only [List.mem_cons] at hp
            cases hp with
            | inl hpe => subst hpe; exact heq2
            | inr hpe => exact ih ss ds p hpe
          · exact ih ss (d :: ds) p hp

@[simp]
theorem ukey_url (sep : Char) (o : Object) : ukey sep o.url = okey sep o := rfl

theorem okeyLt_head (sep : Char) {s : Object} {ss : List Object}
    (hp : (s :: ss).Pairwise (okeyLt sep)) {x : String}
    (hx : x ∈ ss.map (okey sep)) : strLtB (okey sep s) x = true := by
  obtain ⟨o, ho, rfl⟩ := List.mem_map.mp hx
  exact (List.pairwise_cons.mp hp).1 o ho

theorem notMem_keys_of_lt_head (sep : Char) {d : Object} {ds : List Object}
    (hp : (d :: ds).Pairwise (okeyLt sep)) {x : String}
    (hx : strLtB x (okey sep d) = true) : x ∉ (d :: ds).map (okey sep) := by
  intro hmem
  simp only [List.map_cons, List.mem_cons] at hmem
  cases hmem with
  | inl he => subst he; exact absurd hx (by simp [strLtB_irrefl])
  | inr he =>
    have h2 := okeyLt_head sep hp he
    exact absurd (strLtB_trans hx h2) (by simp [strLtB_irrefl])

theorem mergeAux_srcOnly_char (sep : Char) :
    ∀ (fuel : Nat) (ss ds : List Object), ss.length + ds.length ≤ fuel →
      ss.Pairwise (okeyLt sep) → ds.Pairwise (okeyLt sep) →
      ∀ x, x ∈ (mergeAux sep fuel ss ds).srcOnly.map (ukey sep) ↔
        (x ∈ ss.map (okey sep) ∧ x ∉ ds.map (okey sep)) := by
  intro fuel
  induction fuel with
  | zero =>
    intro ss ds h _ _ x
    have hss : ss = [] := List.eq_nil_of_length_eq_zero (by omega)
    have hds : ds = [] := List.eq_nil_of_length_eq_zero (by omega)
    subst hss; subst hds
    simp [mergeAux]
  | succ n ih =>
    intro ss ds h hs hd x
    cases ss with
    | nil =>
      rw [mergeAux_nil_left sep (n + 1) ds (by simp at h; omega)]
      simp
    | cons s ss =>
      cases ds with
      | nil =>
        rw [mergeAux_nil_right sep (n + 1) (s :: ss) (by simp at h ⊢; omega)]
        simp [List.map_map]
      | cons d ds =>
        simp only [mergeAux]
        split
        · rename_i hlt
          rw [ih (s :: ss) ds (by simp at h ⊢; omega) hs (List.pairwise_cons.mp hd).2 x]
          constructor
          · rintro ⟨hx1, hx2⟩
            have hdx : strLtB (okey sep d) x = true := by
              simp only [List.map_cons, List.mem_cons] at hx1
              cases hx1 with
              | inl he => subst he; exact hlt
              | inr he => exact strLtB_trans hlt (okeyLt_head sep hs he)
            refine ⟨hx1, ?_⟩
            simp only [List.map_cons, List.mem_cons]
            rintro (he | he)
            · subst he; exact absurd hdx (by simp [strLtB_irrefl])
            · exact hx2 he
          · rintro ⟨hx1, hx2⟩
            exact ⟨hx1, fun he =>
              hx2 (by simp only [List.map_cons, List.mem_cons]; exact Or.inr he)⟩
        · split
          · rename_i hnlt heq
            have heq' : okey sep s = okey sep d := heq
            rw [ih ss ds (by simp at h ⊢; omega) (List.pairwise_cons.mp hs).2
              (List.pairwise_cons.mp hd).2 x]
            constructor
            · rintro ⟨hx1, hx2⟩
              have hsx : strLtB (okey sep s) x = true := okeyLt_head sep hs hx1
              refine ⟨by simp only [List.map_cons, List.mem_cons]; exact Or.inr hx1, ?_⟩
              simp only [List.map_cons, List.mem_cons]
              rintro (he | he)
              · subst he
                rw [← heq'] at hsx
                exact absurd hsx (by simp [strLtB_irrefl])
              · exact hx2 he
            · rintro ⟨hx1, hx2⟩
              simp only [List.map_cons, List.mem_cons] at hx1 hx2
              push_neg at hx2
              cases hx1 with
              | inl he => exact absurd (he.trans heq') hx2.1
              | inr he => exact ⟨he, hx2.2⟩
          · rename_i hnlt hne
            have hsd : strLtB (okey sep s) (okey sep d) = true := by
              cases strLtB_total_of_ne (show okey sep s ≠ okey sep d from hne) with
              | inl hh => exact hh
              | inr hh => exact absurd hh hnlt
            simp only [List.map_cons, List.mem_cons, ukey_url]
            rw [ih ss (d :: ds) (by simp at h ⊢; omega) (List.pairwise_cons.mp hs).2 hd x]
            constructor
            · rintro (he | ⟨hx1, hx2⟩)
              · subst he
                refine ⟨Or.inl rfl, ?_⟩
                have hnm := notMem_keys_of_lt_head sep hd hsd
                simp only [List.map_cons, List.mem_cons] at hnm
                exact hnm
              · refine ⟨Or.inr hx1, ?_⟩
                simp only [List.map_cons, List.mem_cons] at hx2
                exact hx2
            · rintro ⟨hx1, hx2⟩
              have hx2' : x ∉ (d :: ds).map (okey sep) := by
                simp only [List.map_cons, List.mem_cons]
                exact hx2
              cases hx1 with
              | inl he => exact Or.inl he
              | inr he => exact Or.inr ⟨he, hx2'⟩

theorem mergeAux_dstOnly_char (sep : Char) :
    ∀ (fuel : Nat) (ss ds : List Object), ss.length + ds.length ≤ fuel →
      ss.Pairwise (okeyLt sep) → ds.Pairwise (okeyLt sep) →
      ∀ x, x ∈ (mergeAux sep fuel ss ds).dstOnly.map (ukey sep) ↔
        (x ∈ ds.map (okey sep) ∧ x ∉ ss.map (okey sep)) := by
  intro fuel
  induction fuel with
  | zero =>
    intro ss ds h _ _ x
    have hss : ss = [] := List.eq_nil_of_length_eq_zero (by omega)
    have hds : ds = [] := List.eq_nil_of_length_eq_zero (by omega)
    subst hss; subst hds
    simp [mergeAux]
  | succ n ih =>
    intro ss ds h hs hd x
    cases ss with
    | nil =>
      rw [mergeAux_nil_left sep (n + 1) ds (by simp at h; omega)]
      simp [List.map_map]
    | cons s ss =>
      cases ds with
      | nil =>
        rw [mergeAux_nil_right sep (n + 1) (s :: ss) (by simp at h ⊢; omega)]
        simp
      | cons d ds =>
        simp only [mergeAux]
        split
        · rename_i hlt
          simp only [List.map_cons, List.mem_cons, ukey_url]
          rw [ih (s :: ss) ds (by simp at h ⊢; omega) hs (List.pairwise_cons.mp hd).2 x]
          constructor
          · rintro (he | ⟨hx1, hx2⟩)
            · subst he
              refine ⟨Or.inl rfl, ?_⟩
              have hnm := notMem_keys_of_lt_head sep hs hlt
              simp only [List.map_cons, List.mem_cons] at hnm
              exact hnm
            · refine ⟨Or.inr hx1, ?_⟩
              simp only [List.map_cons, List.mem_cons] at hx2
              exact hx2
          · rintro ⟨hx1, hx2⟩
            have hx2' : x ∉ (s :: ss).map (okey sep) := by
              simp only [List.map_cons, List.mem_cons]
              exact hx2
            cases hx1 with
            | inl he => exact Or.inl he
            | inr he => exact Or.inr ⟨he, hx2'⟩
        · split
          · rename_i hnlt heq
            have heq' : okey sep s = okey sep d := heq
            rw [ih ss ds (by simp at h ⊢; omega) (List.pairwise_cons.mp hs).2
              (List.pairwise_cons.mp hd).2 x]
            constructor
            · rintro ⟨hx1, hx2⟩
              have hdx : strLtB (okey sep d) x = true := okeyLt_head sep hd hx1
              refine ⟨by simp only [List.map_cons, List.mem_cons]; exact Or.inr hx1, ?_⟩
              simp only [List.map_cons, List.mem_cons]
              rintro (he | he)
              · subst he
                rw [heq'] at hdx
                exact absurd hdx (by simp [strLtB_irrefl])
              · exact hx2 he
            · rintro ⟨hx1, hx2⟩
              simp only [List.map_cons, List.mem_cons] at hx1 hx2
              push_neg at hx2
              cases hx1 with
              | inl he => exact absurd (he.trans heq'.symm) hx2.1
              | inr he => exact ⟨he, hx2.2⟩
          · rename_i hnlt hne
            have hsd : strLtB (okey sep s) (okey sep d) = true := by
              cases strLtB_total_of_ne (show okey sep s ≠ okey sep d from hne) with
              | inl hh => exact hh
              | inr hh => exact absurd hh hnlt
            rw [ih ss (d :: ds) (by simp at h ⊢; omega) (List.pairwise_cons.mp hs).2 hd x]
            constructor
            · rintro ⟨hx1, hx2⟩
              have hsx : strLtB (okey sep s) x = true := by
                simp only [List.map_cons, List.mem_cons] at hx1
                cases hx1 with
                | inl he => subst he; exact hsd
                | inr he => exact strLtB_trans hsd (okeyLt_head sep hd he)
              refine ⟨hx1, ?_⟩
              simp only [List.map_cons, List.mem_cons]
              rintro (he | he)
              · subst he; exact absurd hsx (by simp [strLtB_irrefl])
              · exact hx2 he
            · rintro ⟨hx1, hx2⟩
              exact ⟨hx1, fun he =>
                hx2 (by simp only [List.map_cons, List.mem_cons]; exact Or.inr he)⟩

theorem mergeAux_common_char (sep : Char) :
    ∀ (fuel : Nat) (ss ds : List Object), ss.length + ds.length ≤ fuel →
      ss.Pairwise (okeyLt sep) → ds.Pairwise (okeyLt sep) →
      ∀ x, x ∈ (mergeAux sep fuel ss ds).common.map (fun p => okey sep p.src) ↔
        (x ∈ ss.map (okey sep) ∧ x ∈ ds.map (okey sep)) := by
  intro fuel
  induction fuel with
  | zero =>
    intro ss ds h _ _ x
    have hss : ss = [] := List.eq_nil_of_length_eq_zero (by omega)
    have hds : ds = [] := List.eq_nil_of_length_eq_zero (by omega)
    subst hss; subst hds
    simp [mergeAux]
  | succ n ih =>
    intro ss ds h hs hd x
    cases ss with
    | nil =>
      rw [mergeAux_nil_left sep (n + 1) ds (by simp at h; omega)]
      simp
    | cons s ss =>
      cases ds with
      | nil =>
        rw [mergeAux_nil_right sep (n + 1) (s :: ss) (by simp at h ⊢; omega)]
        simp
      | cons d ds =>
        simp only [mergeAux]
        split
        · rename_i hlt
          rw [ih (s :: ss) ds (by simp at h ⊢; omega) hs (List.pairwise_cons.mp hd).2 x]
          constructor
          · rintro ⟨hx1, hx2⟩
            exact ⟨hx1, by simp only [List.map_cons, List.mem_cons]; exact Or.inr hx2⟩
          · rintro ⟨hx1, hx2⟩
            refine ⟨hx1, ?_⟩
            simp only [List.map_cons, List.mem_cons] at hx2
            cases hx2 with
            | inr he => exact he
            | inl he =>
              subst he
              have hlt' : strLtB (okey sep d) (okey sep s) = true := hlt
              simp only [List.map_cons, List.mem_cons] at hx1
              cases hx1 with
              | inl he2 =>
                rw [he2] at hlt'
                exact absurd hlt' (by simp [strLtB_irrefl])
              | inr he2 =>
                have h3 := okeyLt_head sep hs he2
                exact absurd (strLtB_trans hlt' h3) (by simp [strLtB_irrefl])
        · split
          · rename_i hnlt heq
            have heq' : okey sep s = okey sep d := heq
            simp only [List.map_cons, List.mem_cons]
            rw [ih ss ds (by simp at h ⊢; omega) (List.pairwise_cons.mp hs).2
              (List.pairwise_cons.mp hd).2 x]
            constructor
            · rintro (he | ⟨hx1, hx2⟩)
              · exact ⟨Or.inl he, Or.inl (he.trans heq')⟩
              · exact ⟨Or.inr hx1, Or.inr hx2⟩
            · rintro ⟨hx1, hx2⟩
              cases hx1 with
              | inl he => exact Or.inl he
              | inr he =>
                refine Or.inr ⟨he, ?_⟩
                cases hx2 with
                | inr he2 => exact he2
                | inl he2 =>
                  have hsx := okeyLt_head sep hs he
                  rw [heq', ← he2] at hsx
                  exact absurd hsx (by simp [strLtB_irrefl])
          · rename_i hnlt hne
            have hsd : strLtB (okey sep s) (okey sep d) = true := by
              cases strLtB_total_of_ne (show okey sep s ≠ okey sep d from hne) with
              | inl hh => exact hh
              | inr hh => exact absurd hh hnlt
            rw [ih ss (d :: ds) (by simp at h ⊢; omega) (List.pairwise_cons.mp hs).2 hd x]
            constructor
            · rintro ⟨hx1, hx2⟩
              exact ⟨by simp only [List.map_cons, List.mem_cons]; exact Or.inr hx1, hx2⟩
            · rintro ⟨hx1, hx2⟩
              refine ⟨?_, hx2⟩
              simp only [List.map_cons, List.mem_cons] at hx1
              cases hx1 with
              | inr he => exact he
              | inl he =>
                subst he
                exact absurd hx2 (notMem_keys_of_lt_head sep hd hsd)

/-! ## From the stable sort to strictly sorted keys -/

theorem pairwise_okeyLt_of_sorted (sep : Char) (l : List Object)
    (hnorm : ∀ o ∈ l, toSlash sep o.url.rel = o.url.rel)
    (hsorted : l.Pairwise relLe)
    (hnd : (l.map (okey sep)).Nodup) :
    l.Pairwise (okeyLt sep) := by
  have hnd' : l.Pairwise fun a b => okey sep a ≠ okey sep b := List.pairwise_map.mp hnd
  have h1 : l.Pairwise fun a b => relLe a b ∧ okey sep a ≠ okey sep b := hsorted.and hnd'
  refine h1.imp_of_mem ?_
  intro a b ha hb hab
  obtain ⟨hle, hne⟩ := hab
  cases strLtB_total_of_ne hne with
  | inl hh => exact hh
  | inr hh =>
    have hka : okey sep a = a.url.rel := hnorm a ha
    have hkb : okey sep b = b.url.rel := hnorm b hb
    rw [hkb, hka] at hh
    exact absurd hh (by simp [relLe] at hle; simp [hle])

theorem sorted_nodup_unique :
    ∀ (l₁ l₂ : List Object), l₁.Perm l₂ → l₁.Pairwise relLe → l₂.Pairwise relLe →
      (l₁.map fun o => o.url.rel).Nodup → l₁ = l₂ := by
  intro l₁
  induction l₁ with
  | nil =>
    intro l₂ hp _ _ _
    exact (hp.symm.eq_nil).symm
  | cons a t₁ ih =>
    intro l₂ hp h₁ h₂ hnd
    cases l₂ with
    | nil => exact absurd hp.eq_nil (by simp)
    | cons b t₂ =>
      have hab : a = b := by
        have hamem : a ∈ b :: t₂ := hp.subset (List.mem_cons_self a t₁)
        have hbmem : b ∈ a :: t₁ := hp.symm.subset (List.mem_cons_self b t₂)
        simp only [List.mem_cons] at hamem hbmem
        cases hamem with
        | inl he => exact he
        | inr hat2 =>
          cases hbmem with
          | inl he => exact he.symm
          | inr hbt1 =>
            have hba : relLe b a := (List.pairwise_cons.mp h₂).1 a hat2
            have hab' : relLe a b := (List.pairwise_cons.mp h₁).1 b hbt1
            have hkey : b.url.rel = a.url.rel := strLtB_eq_of_not_lt hab' hba
            have : a.url.rel ∈ t₁.map fun o => o.url.rel :=
              List.mem_map.mpr ⟨b, hbt1, hkey⟩
            have hnda := (List.pairwise_cons.mp hnd).1
            simp only [List.map_cons] at hnd
            exact absurd this (by
              have := (List.nodup_cons.mp hnd).1
              simpa using this)
      subst hab
      have ht : t₁.Perm t₂ := hp.cons_inv
      have := ih t₂ ht (List.pairwise_cons.mp h₁).2 (List.pairwise_cons.mp h₂).2
        (by simp only [List.map_cons] at hnd; exact (List.nodup_cons.mp hnd).2)
      rw [this]

theorem insertionSort_eq_of_perm (l₁ l₂ : List Object) (hp : l₁.Perm l₂)
    (hnd : (l₁.map fun o => o.url.rel).Nodup) :
    List.insertionSort relLe l₁ = List.insertionSort relLe l₂ := by
  apply sorted_nodup_unique
  · exact (List.perm_insertionSort relLe l₁).trans (hp.trans (List.perm_insertionSort relLe l₂).symm)
  · exact List.sorted_insertionSort relLe l₁
  · exact List.sorted_insertionSort relLe l₂
  · have hmp := (List.perm_insertionSort relLe l₁).map fun o => o.url.rel
    exact hmp.nodup_iff.mpr hnd

/-- C2: for every pair of filtered input lists (relative paths already in
slash-normalized form, as the data model requires, and at most one eligible
object per relative path on each side), `compareObjects` partitions the
inputs completely: source-only together with the source halves of the
common pairs is a permutation of the source set, symmetrically for the
destination, and the three partitions are pairwise disjoint by
relative-path key. -/
theorem c2_partition_completeness (sep : Char) (srcs dsts : List Object)
    (hsrcNorm : ∀ o ∈ srcs, toSlash sep o.url.rel = o.url.rel)
    (hdstNorm : ∀ o ∈ dsts, toSlash sep o.url.rel = o.url.rel)
    (hsrcKeys : (srcs.map (okey sep)).Nodup)
    (hdstKeys : (dsts.map (okey sep)).Nodup) :
    ((compareObjects sep srcs dsts).srcOnly ++
        (compareObjects sep srcs dsts).common.map fun p => p.src.url).Perm
      (srcs.map fun o => o.url) ∧
    ((compareObjects sep srcs dsts).dstOnly ++
        (compareObjects sep srcs dsts).common.map fun p => p.dst.url).Perm
      (dsts.map fun o => o.url) ∧
    ((compareObjects sep srcs dsts).srcOnly.map (ukey sep)).Disjoint
      ((compareObjects sep srcs dsts).dstOnly.map (ukey sep)) ∧
    ((compareObjects sep srcs dsts).srcOnly.map (ukey sep)).Disjoint
      ((compareObjects sep srcs dsts).common.map fun p => okey sep p.src) ∧
    ((compareObjects sep srcs dsts).dstOnly.map (ukey sep)).Disjoint
      ((compareObjects sep srcs dsts).common.map fun p => okey sep p.dst) := by
  have hpermS : (List.insertionSort relLe srcs).Perm srcs := List.perm_insertionSort relLe srcs
  have hpermD : (List.insertionSort relLe dsts).Perm dsts := List.perm_insertionSort relLe dsts
  have hco : compareObjects sep srcs dsts =
      mergeAux sep ((List.insertionSort relLe srcs).length + (List.insertionSort relLe dsts).length)
        (List.insertionSort relLe srcs) (List.insertionSort relLe dsts) := rfl
  have hsortS : (List.insertionSort relLe srcs).Pairwise (okeyLt sep) :=
    pairwise_okeyLt_of_sorted sep _ (fun o ho => hsrcNorm o (hpermS.subset ho))
      (List.sorted_insertionSort relLe srcs) ((hpermS.map (okey sep)).nodup_iff.mpr hsrcKeys)
  have hsortD : (List.insertionSort relLe dsts).Pairwise (okeyLt sep) :=
    pairwise_okeyLt_of_sorted sep _ (fun o ho => hdstNorm o (hpermD.subset ho))
      (List.sorted_insertionSort relLe dsts) ((hpermD.map (okey sep)).nodup_iff.mpr hdstKeys)
  have hfuel : (List.insertionSort relLe srcs).length + (List.insertionSort relLe dsts).length ≤
      (List.insertionSort relLe srcs).length + (List.insertionSort relLe dsts).length := le_refl _
  have hchS := mergeAux_srcOnly_char sep _ _ _ hfuel hsortS hsortD
  have hchD := mergeAux_dstOnly_char sep _ _ _ hfuel hsortS hsortD
  have hchC := mergeAux_common_char sep _ _ _ hfuel hsortS hsortD
  have hck := mergeAux_common_keys sep
    ((List.insertionSort relLe srcs).length + (List.insertionSort relLe dsts).length)
    (List.insertionSort relLe srcs) (List.insertionSort relLe dsts)
  refine ⟨?_, ?_, ?_, ?_, ?_⟩
  · rw [hco]
    exact (mergeAux_src_perm sep _ _ _ hfuel).trans (hpermS.map fun o => o.url)
  · rw [hco]
    exact (mergeAux_dst_perm sep _ _ _ hfuel).trans (hpermD.map fun o => o.url)
  · rw [hco]
    intro a h1 h2
    obtain ⟨ha1, ha2⟩ := (hchS a).mp h1
    obtain ⟨hb1, hb2⟩ := (hchD a).mp h2
    exact hb2 ha1
  · rw [hco]
    intro a h1 h2
    obtain ⟨ha1, ha2⟩ := (hchS a).mp h1
    obtain ⟨hb1, hb2⟩ := (hchC a).mp h2
    exact ha2 hb2
  · rw [hco]
    intro a h1 h2
    obtain ⟨ha1, ha2⟩ := (hchD a).mp h1
    obtain ⟨p, hpmem, hpk⟩ := List.mem_map.mp h2
    have hpk' : a = okey sep p.src := by rw [← hpk, hck p hpmem]
    have : a ∈ ((mergeAux sep
        ((List.insertionSort relLe srcs).length + (List.insertionSort relLe dsts).length)
        (List.insertionSort relLe srcs) (List.insertionSort relLe dsts)).common.map
          fun p => okey sep p.src) :=
      List.mem_map.mpr ⟨p, hpmem, hpk'.symm⟩
    exact ha2 ((hchC a).mp this).1

/-- C2, witness: the example scenario of spec section 8 discharges the
hypotheses (already-normalized relative paths, unique keys per side). -/
theorem c2_partition_completeness_witness :
    ((compareObjects '/' [fileObj "a.txt" 10, fileObj "b.txt" 20, fileObj "sub/c.txt" 5]
        [fileObj "a.txt" 12, fileObj "old.txt" 1]).srcOnly ++
      (compareObjects '/' [fileObj "a.txt" 10, fileObj "b.txt" 20, fileObj "sub/c.txt" 5]
        [fileObj "a.txt" 12, fileObj "old.txt" 1]).common.map fun p => p.src.url).Perm
      ([fileObj "a.txt" 10, fileObj "b.txt" 20, fileObj "sub/c.txt" 5].map fun o => o.url) :=
  (c2_partition_completeness '/'
    [fileObj "a.txt" 10, fileObj "b.txt" 20, fileObj "sub/c.txt" 5]
    [fileObj "a.txt" 12, fileObj "old.txt" 1]
    (by decide) (by decide) (by decide) (by decide)).1

/-- C3: with distinct relative-path keys on each side, the result of
`compareObjects` is the same for every permutation of each input list: the
pre-sort makes the diff independent of the original listing order. -/
theorem c3_ordering_independence (sep : Char) (srcs1 srcs2 dsts1 dsts2 : List Object)
    (hps : srcs1.Perm srcs2) (hpd : dsts1.Perm dsts2)
    (hsk : (srcs1.map fun o => o.url.rel).Nodup)
    (hdk : (dsts1.map fun o => o.url.rel).Nodup) :
    compareObjects sep srcs1 dsts1 = compareObjects sep srcs2 dsts2 := by
  unfold compareObjects mergeLoop
  rw [insertionSort_eq_of_perm srcs1 srcs2 hps hsk,
    insertionSort_eq_of_perm dsts1 dsts2 hpd hdk]

/-- C3, witness: swapping the discovery order of the source listing leaves
the diff unchanged. -/
theorem c3_ordering_independence_witness :
    compareObjects '/' [fileObj "b.txt" 20, fileObj "a.txt" 10] [fileObj "old.txt" 1] =
      compareObjects '/' [fileObj "a.txt" 10, fileObj "b.txt" 20] [fileObj "old.txt" 1] :=
  c3_ordering_independence '/' [fileObj "b.txt" 20, fileObj "a.txt" 10]
    [fileObj "a.txt" 10, fileObj "b.txt" 20] [fileObj "old.txt" 1] [fileObj "old.txt" 1]
    (by decide) (by decide) (by decide) (by decide)

/-- C1, counterexample: with `isBatch = true` and a remote destination that
addresses an exact object key, `generateDestinationURL` returns the clone of
the destination, not `destinationBase.join(source.relativePath)` as the
first row of the section 4.4 table states. -/
theorem c1_counterexample :
    generateDestinationURL batchSrcURL remoteKeyURL true = remoteKeyURL.Clone ∧
    generateDestinationURL batchSrcURL remoteKeyURL true ≠
      remoteKeyURL.Join batchSrcURL.Relative := by
  decide

/-- C1, amended: `generateDestinationURL` follows the section 4.4 table with
its first row restricted — in batch mode the result is
`destinationBase.join(source.relativePath)` for a remote prefix, a remote
bucket root or a local destination, while a remote exact-key destination is
cloned unchanged regardless of the batch flag; the non-batch rows are as
documented. -/
theorem c1_resolver_table_amended (src dst : URL) (b : Bool) :
    generateDestinationURL src dst b = resolveDestinationSpec src dst b := by
  unfold generateDestinationURL resolveDestinationSpec
  cases b with
  | true =>
    by_cases h1 : dst.IsRemote = true
    · by_cases h2 : (dst.IsPrefix || dst.IsBucket) = true
      · simp [h1, h2]
      · simp [h1, h2]
    · simp [Bool.not_eq_true] at h1
      simp [h1]
  | false =>
    by_cases h1 : dst.IsRemote = true
    · by_cases h2 : (dst.IsPrefix || dst.IsBucket) = true
      · simp [h1, h2]
      · simp [h1, h2]
    · simp [Bool.not_eq_true] at h1
      simp [h1]

/-- C4, counterexample: with host separator backslash, the pre-sort
comparator of `compareObjects` (raw relative paths, `goLess`) orders the
objects `a0` and `a backslash b` strictly opposite to the slash-normalized
merge-join keys, and on concrete input the resulting diff splits an
equal-keyed object into source-only and destination-only instead of pairing
it — so not every relative-path comparison used for diffing is performed on
forward-slash-normalized strings. -/
theorem c4_counterexample :
    goLess (fileObj "a0" 1) (fileObj "a\\b" 1) ∧
    strLtB (okey '\\' (fileObj "a\\b" 1)) (okey '\\' (fileObj "a0" 1)) = true ∧
    (compareObjects '\\' [fileObj "a\\b" 1] [fileObj "a0" 1, fileObj "a\\b" 1]).srcOnly.map
      (ukey '\\') = ["a/b"] ∧
    (compareObjects '\\' [fileObj "a\\b" 1] [fileObj "a0" 1, fileObj "a\\b" 1]).dstOnly.map
      (ukey '\\') = ["a0", "a/b"] ∧
    (compareObjects '\\' [fileObj "a\\b" 1] [fileObj "a0" 1, fileObj "a\\b" 1]).common = [] := by
  decide

/-- C4, amended: only the per-step merge-join key comparison of
`compareObjects` operates on forward-slash-normalized relative paths; the
pre-sort comparator operates on the raw relative paths, and the two orders
coincide exactly when the relative paths are unchanged by slash
normalization (in particular on hosts whose separator is already `/`). -/
theorem c4_normalization_amended (sep : Char) (a b : Object)
    (ha : toSlash sep a.url.rel = a.url.rel) (hb : toSlash sep b.url.rel = b.url.rel) :
    (goLess a b ↔ strLtB (okey sep a) (okey sep b) = true) ∧
    (relLe a b ↔ strLtB (okey sep b) (okey sep a) = false) := by
  unfold goLess relLe okey
  rw [ha, hb]
  exact ⟨Iff.rfl, Iff.rfl⟩

/-- C4, witness for the amended statement. -/
theorem c4_normalization_amended_witness :
    goLess (fileObj "a" 1) (fileObj "b" 1) ↔
      strLtB (okey '\\' (fileObj "a" 1)) (okey '\\' (fileObj "b" 1)) = true :=
  (c4_normalization_amended '\\' (fileObj "a" 1) (fileObj "b" 1) (by decide) (by decide)).1

/-- C5, counterexample: a Glacier-class object listed on the destination
side (`verbose = false`) is skipped but no warning is reported — the
reporting of the Glacier warning is not independent of the side. -/
theorem c5_counterexample :
    isGlacier glacierObject.storageClass = true ∧
    (sampleSync.shouldSkipObject glacierObject false).1 = true ∧
    (sampleSync.shouldSkipObject glacierObject false).2 = [] := by
  decide

/-- C5, amended: an eligible (non-directory, error-free) object whose
storage class is Glacier is skipped on both sides, but the warning is
reported exactly on the source side (`verbose = true`); destination-side
Glacier objects are skipped silently. -/
theorem c5_glacier_skip_amended (s : Sync) (o : Object) (v : Bool)
    (hkind : o.kind = .file) (herr : o.err = none)
    (hglacier : isGlacier o.storageClass = true) :
    (s.shouldSkipObject o v).1 = true ∧
    ((s.shouldSkipObject o v).2 ≠ [] ↔ v = true) := by
  unfold Sync.shouldSkipObject
  rw [hkind, herr]
  simp only [ObjKind.isDir, isCancelation, Bool.or_self, Bool.false_eq_true, if_false,
    hglacier, if_true]
  cases v <;> simp

/-- C5, witness for the amended statement: applied on both sides to the
Glacier fixture. -/
theorem c5_glacier_skip_amended_witness :
    ((sampleSync.shouldSkipObject glacierObject false).1 = true ∧
      ((sampleSync.shouldSkipObject glacierObject false).2 ≠ [] ↔ false = true)) ∧
    ((sampleSync.shouldSkipObject glacierObject true).1 = true ∧
      ((sampleSync.shouldSkipObject glacierObject true).2 ≠ [] ↔ true = true)) :=
  ⟨c5_glacier_skip_amended sampleSync glacierObject false (by decide) (by decide) (by decide),
   c5_glacier_skip_amended sampleSync glacierObject true (by decide) (by decide) (by decide)⟩

/-! ## The error aggregation loop -/

theorem aggLoop_clean :
    ∀ (l acc : List String), (∀ e ∈ l, tooManyOpenFiles e = false) →
      aggLoop acc l = .normal (acc ++ l) := by
  intro l
  induction l with
  | nil => intro acc _; simp [aggLoop]
  | cons e rest ih =>
    intro acc h
    have he : tooManyOpenFiles e = false := h e (List.mem_cons_self e rest)
    rw [aggLoop, if_neg (by simp [he])]
    rw [ih (acc ++ [e]) fun e' h' => h e' (List.mem_cons_of_mem e h')]
    simp

theorem aggLoop_fatal :
    ∀ (pre acc : List String) (e : String) (post : List String),
      (∀ x ∈ pre, tooManyOpenFiles x = false) → tooManyOpenFiles e = true →
      aggLoop acc (pre ++ e :: post) = .fatal e 1 (acc ++ pre) := by
  intro pre
  induction pre with
  | nil =>
    intro acc e post _ he
    rw [List.nil_append, aggLoop, if_pos he]
    simp
  | cons p rest ih =>
    intro acc e post h he
    have hp : tooManyOpenFiles p = false := h p (List.mem_cons_self p rest)
    rw [List.cons_append, aggLoop, if_neg (by simp [hp])]
    rw [ih (acc ++ [p]) e post (fun x hx => h x (List.mem_cons_of_mem p hx)) he]
    simp

/-- C8: in the error aggregation loop, if no arriving error contains the
"too many open files" signal, the loop completes normally with every error
folded into the combined result in arrival order; the first arriving error
containing the signal terminates the process immediately with exit code 1,
accumulating only the errors that arrived before it (the rest of the
stream is bypassed). -/
theorem c8_error_aggregation (errs : List String) :
    ((∀ e ∈ errs, tooManyOpenFiles e = false) → aggregateErrors errs = .normal errs) ∧
    (∀ (pre : List String) (e : String) (post : List String),
      errs = pre ++ e :: post → (∀ x ∈ pre, tooManyOpenFiles x = false) →
      tooManyOpenFiles e = true → aggregateErrors errs = .fatal e 1 pre) := by
  constructor
  · intro h
    unfold aggregateErrors
    rw [aggLoop_clean errs [] h]
    simp
  · intro pre e post heq hpre he
    subst heq
    unfold aggregateErrors
    rw [aggLoop_fatal pre [] e post hpre he]
    simp

/-- C8, witness: a clean run folds both errors; a run whose second error
carries the signal exits with code 1 having accumulated only the first. -/
theorem c8_error_aggregation_witness :
    aggregateErrors ["copy failed", "rm failed"] = .normal ["copy failed", "rm failed"] ∧
    aggregateErrors ["copy failed", "open x: too many open files", "late"] =
      .fatal "open x: too many open files" 1 ["copy failed"] :=
  ⟨(c8_error_aggregation ["copy failed", "rm failed"]).1 (by decide),
   (c8_error_aggregation ["copy failed", "open x: too many open files", "late"]).2
     ["copy failed"] "open x: too many open files" ["late"] rfl (by decide) (by decide)⟩

/-- C9: the destination-side listing of `getSourceAndDestinationObjects` is
always performed with the follow-symlinks argument fixed to `false` — the
destination objects are those listed at the wildcard-suffixed destination
with `false`, unchanged under any value of the `no-follow-symlinks` flag —
while the source-side listing is performed with `followSymlinks` equal to
the negation of the flag, as set by `NewSync`. -/
theorem c9_dest_listing_no_symlinks (f : SyncFlags) (b : Bool)
    (lister : URL → Bool → List Object) (srcurl dsturl : URL) :
    (getSourceAndDestinationObjects (NewSync { f with noFollowSymlinks := b })
        lister srcurl dsturl).2 =
      (getSourceAndDestinationObjects (NewSync f) lister srcurl dsturl).2 ∧
    (getSourceAndDestinationObjects (NewSync f) lister srcurl dsturl).2 =
      (lister (urlNew (destinationListPath f.dst)) false).filter
        (fun o => !((NewSync f).shouldSkipObject o false).1) ∧
    (getSourceAndDestinationObjects (NewSync f) lister srcurl dsturl).1 =
      (lister srcurl (!f.noFollowSymlinks)).filter
        (fun o => !((NewSync f).shouldSkipObject o true).1) := by
  exact ⟨rfl, rfl, rfl⟩

/-! ## The plan emitter -/

/-- C6: for a common pair `p` (whose source url does not collide with any
source-only url, and whose source url identifies it uniquely among the
common pairs), `planRun` emits the copy command for `p` exactly when the
strategy's `ShouldSync` returns nil; a non-nil strategy result suppresses
the copy and surfaces only as a debug-level trace — the emitter produces
no failure from it. -/
theorem c6_strategy_polarity (s : Sync) (onlySource onlyDest : List URL)
    (common : List ObjectPair) (dsturl : URL) (strategy : SyncStrategy) (isBatch : Bool)
    (p : ObjectPair) (hp : p ∈ common)
    (hsrc : ∀ u ∈ onlySource, u ≠ p.src.url)
    (huniq : ∀ q ∈ common, q.src.url = p.src.url → q = p) :
    (generateCommand "cp" true [p.src.url, p.dst.url] ∈
        (planRun s onlySource onlyDest common dsturl strategy isBatch).cmds ↔
      strategy p.src p.dst = none) ∧
    (∀ e, strategy p.src p.dst = some e →
      e ∈ (planRun s onlySource onlyDest common dsturl strategy isBatch).debug) := by
  constructor
  · constructor
    · intro hmem
      simp only [planRun, List.mem_append] at hmem
      rcases hmem with (hmem | hmem) | hmem
      · obtain ⟨u, hu, he⟩ := List.mem_map.mp hmem
        simp only [generateCommand, Command.mk.injEq, List.cons.injEq] at he
        exact absurd he.2.2.1 (hsrc u hu)
      · obtain ⟨q, hq, he⟩ := List.mem_filterMap.mp hmem
        cases hst : strategy q.src q.dst with
        | some err => rw [hst] at he; exact absurd he (by simp)
        | none =>
          rw [hst] at he
          simp only [Option.some.injEq, generateCommand, Command.mk.injEq,
            List.cons.injEq] at he
          have hq' : q = p := huniq q hq he.2.2.1
          rw [← hq']
          exact hst
      · by_cases hc : (s.delete && decide (0 < onlyDest.length)) = true
        · rw [if_pos hc] at hmem
          simp only [List.mem_singleton, generateCommand, Command.mk.injEq] at hmem
          exact absurd hmem.1 (by decide)
        · rw [if_neg hc] at hmem
          exact absurd hmem (by simp)
    · intro hst
      simp only [planRun, List.mem_append]
      refine Or.inl (Or.inr ?_)
      refine List.mem_filterMap.mpr ⟨p, hp, ?_⟩
      rw [hst]
  · intro e hst
    simp only [planRun]
    exact List.mem_filterMap.mpr ⟨p, hp, hst⟩

/-- C6, witness: with the always-nil strategy the copy command for the
fixture pair is emitted. -/
theorem c6_strategy_polarity_witness :
    generateCommand "cp" true [syncPair.src.url, syncPair.dst.url] ∈
      (planRun sampleSync [] [] [syncPair] remoteKeyURL (fun _ _ => none) true).cmds :=
  (c6_strategy_polarity sampleSync [] [] [syncPair] remoteKeyURL (fun _ _ => none) true
    syncPair (by decide) (by decide) (by decide)).1.mpr rfl

/-- C7: no `rm` command is ever emitted when the delete flag is off; when
the delete flag is on and the destination-only partition is non-empty,
the emitted commands contain exactly one `rm` entry, batched over the whole
destination-only url list. -/
theorem c7_deletion_gating (s : Sync) (onlySource onlyDest : List URL)
    (common : List ObjectPair) (dsturl : URL) (strategy : SyncStrategy) (isBatch : Bool) :
    (s.delete = false →
      ∀ cmd ∈ (planRun s onlySource onlyDest common dsturl strategy isBatch).cmds,
        cmd.op ≠ "rm") ∧
    (s.delete = true → onlyDest ≠ [] →
      ((planRun s onlySource onlyDest common dsturl strategy isBatch).cmds.filter
          fun c => c.op == "rm") = [generateCommand "rm" true onlyDest]) := by
  constructor
  · intro hdel cmd hmem
    simp only [planRun, hdel, Bool.false_and, Bool.false_eq_true, if_false,
      List.append_nil, List.mem_append] at hmem
    rcases hmem with hmem | hmem
    · obtain ⟨u, _, he⟩ := List.mem_map.mp hmem
      rw [← he]
      exact (by decide : ¬ ("cp" : String) = "rm")
    · obtain ⟨q, _, he⟩ := List.mem_filterMap.mp hmem
      cases hst : strategy q.src q.dst with
      | some err => rw [hst] at he; exact absurd he (by simp)
      | none =>
        rw [hst] at he
        simp only [Option.some.injEq] at he
        rw [← he]
        exact (by decide : ¬ ("cp" : String) = "rm")
  · intro hdel hne
    have hcond : (s.delete && decide (0 < onlyDest.length)) = true := by
      simp [hdel, List.length_pos.mpr hne]
    simp only [planRun, hcond, if_pos]
    rw [List.filter_append, List.filter_append]
    have h1 : (onlySource.map fun srcurl =>
        generateCommand "cp" true [srcurl, generateDestinationURL srcurl dsturl isBatch]).filter
          (fun c => c.op == "rm") = [] := by
      rw [List.filter_eq_nil]
      intro c hc
      obtain ⟨u, _, he⟩ := List.mem_map.mp hc
      rw [← he]
      exact (by decide : ¬ (("cp" : String) == "rm") = true)
    have h2 : (common.filterMap fun q =>
        match strategy q.src q.dst with
        | some _ => none
        | none => some (generateCommand "cp" true [q.src.url, q.dst.url])).filter
          (fun c => c.op == "rm") = [] := by
      rw [List.filter_eq_nil]
      intro c hc
      obtain ⟨q, _, he⟩ := List.mem_filterMap.mp hc
      cases hst : strategy q.src q.dst with
      | some err => rw [hst] at he; exact absurd he (by simp)
      | none =>
        rw [hst] at he
        simp only [Option.some.injEq] at he
        rw [← he]
        exact (by decide : ¬ (("cp" : String) == "rm") = true)
    rw [h1, h2]
    simp [generateCommand]

/-- C7, witness: with the delete flag on and one destination-only url,
exactly the batched `rm` survives the filter. -/
theorem c7_deletion_gating_witness :
    ((planRun sampleSyncDelete [] [remoteKeyURL] [] remoteKeyURL (fun _ _ => none) true).cmds.filter
        fun c => c.op == "rm") = [generateCommand "rm" true [remoteKeyURL]] :=
  (c7_deletion_gating sampleSyncDelete [] [remoteKeyURL] [] remoteKeyURL
    (fun _ _ => none) true).2 rfl (by decide)

/-- C10: every command entry `planRun` emits — the source-only copies, the
common-pair copies and the batched delete alike — carries the forced raw
(exact addressing) flag set to true. -/
theorem c10_raw_flag (s : Sync) (onlySource onlyDest : List URL)
    (common : List ObjectPair) (dsturl : URL) (strategy : SyncStrategy) (isBatch : Bool) :
    ∀ cmd ∈ (planRun s onlySource onlyDest common dsturl strategy isBatch).cmds,
      cmd.raw = true := by
  intro cmd hmem
  simp only [planRun, List.mem_append] at hmem
  rcases hmem with (hmem | hmem) | hmem
  · obtain ⟨u, _, he⟩ := List.mem_map.mp hmem
    rw [← he]
    rfl
  · obtain ⟨q, _, he⟩ := List.mem_filterMap.mp hmem
    cases hst : strategy q.src q.dst with
    | some err => rw [hst] at he; exact absurd he (by simp)
    | none =>
      rw [hst] at he
      simp only [Option.some.injEq] at he
      rw [← he]
      rfl
  · by_cases hc : (s.delete && decide (0 < onlyDest.length)) = true
    · rw [if_pos hc] at hmem
      simp only [List.mem_singleton] at hmem
      rw [hmem]
      rfl
    · rw [if_neg hc] at hmem
      exact absurd hmem (by simp)

/-- C10, witness: the raw flag of the batched delete entry emitted for the
fixture run. -/
theorem c10_raw_flag_witness :
    (generateCommand "rm" true [remoteKeyURL]).raw = true :=
  c10_raw_flag sampleSyncDelete [] [remoteKeyURL] [] remoteKeyURL (fun _ _ => none) true
    (generateCommand "rm" true [remoteKeyURL]) (by decide)

end SyncSpec
